import Mathlib

/-!
Verification of the caption-timing subsystem of the tiktok-bot repository.

The JavaScript source (src/unnamed/part_001, first file) is shallowly embedded
here: JS strings become `List Char`, JS numbers used for times become `ℚ`
(exact rational arithmetic), and the stateful loops become folds / structural
recursions over lists.  The embedded functions keep the source's names:
`splitTextIntoChunks` (lines 42-74), `escapeDrawtext` (lines 81-91), the
timing pass and emitter of `generateSubtitleFilter` (lines 100-150), and the
start-offset selection of `processVideo` (lines 250-262).
-/

/-- The backslash character. -/
def bs : Char := '\\'

/-- The ASCII apostrophe character (code 39). -/
def apos : Char := Char.ofNat 39

/-- The Unicode right single quotation mark U+2019, written `’` in the
source (line 85). -/
def rsquo : Char := Char.ofNat 8217

/-- Worker for `splitWords`: accumulates the current (reversed) word in `cur`
while scanning the text.  Models `text.split(/\s+/).filter(w => w.length > 0)`
(line 43): the result is the list of maximal runs of non-whitespace
characters. -/
def splitWordsGo (cur : List Char) : List Char → List (List Char)
  | [] => if cur = [] then [] else [cur.reverse]
  | c :: cs =>
    if c.isWhitespace then
      if cur = [] then splitWordsGo [] cs else cur.reverse :: splitWordsGo [] cs
    else
      splitWordsGo (c :: cur) cs

/-- `text.split(/\s+/).filter(w => w.length > 0)` from line 43 of the source:
the whitespace-separated words of a text, empty tokens discarded. -/
def splitWords (s : List Char) : List (List Char) :=
  splitWordsGo [] s

/-- JavaScript `Array.join(sep)` on a list of strings. -/
def joinWith (sep : List Char) : List (List Char) → List Char
  | [] => []
  | [w] => w
  | w :: v :: ws => w ++ sep ++ joinWith sep (v :: ws)

/-- `currentChunk.join(" ")` from lines 58 and 70 of the source. -/
def joinSpace (ws : List (List Char)) : List Char :=
  joinWith [' '] ws

/-- Character length of a list of words joined by single spaces. -/
def joinLen (ws : List (List Char)) : Nat :=
  (joinSpace ws).length

/-- Loop state of `splitTextIntoChunks` (lines 44-46): the emitted chunks (as
joined strings), the words of the current chunk, and the running character
length `currentLength`. -/
structure ChunkSt where
  chunks : List (List Char)
  currentChunk : List (List Char)
  currentLength : Nat

/-- One iteration of the `for (const word of words)` loop of
`splitTextIntoChunks` (lines 48-66): compute `wouldBeLength`, flush the
current chunk when the word-count or character limit would be exceeded
(the character test is skipped while the chunk is empty), else append the
word. -/
def chunkStep (wordsPerChunk maxCharsPerChunk : Nat) (st : ChunkSt)
    (word : List Char) : ChunkSt :=
  let wouldBeLength :=
    st.currentLength + word.length + (if 0 < st.currentChunk.length then 1 else 0)
  if wordsPerChunk ≤ st.currentChunk.length ∨
      (0 < st.currentLength ∧ maxCharsPerChunk < wouldBeLength) then
    { chunks := st.chunks ++
        (if 0 < st.currentChunk.length then [joinSpace st.currentChunk] else []),
      currentChunk := [word],
      currentLength := word.length }
  else
    { chunks := st.chunks,
      currentChunk := st.currentChunk ++ [word],
      currentLength := wouldBeLength }

/-- `splitTextIntoChunks` (lines 42-74): split on whitespace, greedily pack
words into chunks bounded by `wordsPerChunk` words and `maxCharsPerChunk`
characters, and emit the trailing partial chunk if non-empty. -/
def splitTextIntoChunks (text : List Char)
    (wordsPerChunk maxCharsPerChunk : Nat) : List (List Char) :=
  let words := splitWords text
  let st := words.foldl (chunkStep wordsPerChunk maxCharsPerChunk) ⟨[], [], 0⟩
  st.chunks ++ (if 0 < st.currentChunk.length then [joinSpace st.currentChunk] else [])

/-- Ghost state for the chunker: identical to `ChunkSt` except that emitted
chunks are kept as word lists instead of joined strings. -/
structure ChunkStW where
  chunksW : List (List (List Char))
  currentChunkW : List (List Char)
  currentLengthW : Nat

/-- Ghost step mirroring `chunkStep`, pushing the word list instead of the
joined string. -/
def chunkStepW (wordsPerChunk maxCharsPerChunk : Nat) (st : ChunkStW)
    (word : List Char) : ChunkStW :=
  let wouldBeLength :=
    st.currentLengthW + word.length + (if 0 < st.currentChunkW.length then 1 else 0)
  if wordsPerChunk ≤ st.currentChunkW.length ∨
      (0 < st.currentLengthW ∧ maxCharsPerChunk < wouldBeLength) then
    { chunksW := st.chunksW ++
        (if 0 < st.currentChunkW.length then [st.currentChunkW] else []),
      currentChunkW := [word],
      currentLengthW := word.length }
  else
    { chunksW := st.chunksW,
      currentChunkW := st.currentChunkW ++ [word],
      currentLengthW := wouldBeLength }

/-- The chunker run at the level of word lists. -/
def chunkWordsRun (ws : List (List Char)) (wordsPerChunk maxCharsPerChunk : Nat) :
    List (List (List Char)) :=
  let st := ws.foldl (chunkStepW wordsPerChunk maxCharsPerChunk) ⟨[], [], 0⟩
  st.chunksW ++ (if 0 < st.currentChunkW.length then [st.currentChunkW] else [])

/-- A word as produced by `splitWords`: non-empty and whitespace-free. -/
def goodWord (w : List Char) : Prop :=
  w ≠ [] ∧ ∀ c ∈ w, c.isWhitespace = false

/-- Invariant of an emitted chunk (as a word list): non-empty, made of good
words, at most `wordsPerChunk` words, and within the character budget unless
it is a single word. -/
def goodChunk (wordsPerChunk maxCharsPerChunk : Nat) (ch : List (List Char)) : Prop :=
  ch ≠ [] ∧ (∀ w ∈ ch, goodWord w) ∧ ch.length ≤ wordsPerChunk ∧
    (joinLen ch ≤ maxCharsPerChunk ∨ ch.length = 1)

/-- Loop invariant of the ghost chunker state. -/
def InvW (wordsPerChunk maxCharsPerChunk : Nat) (st : ChunkStW) : Prop :=
  (∀ w ∈ st.currentChunkW, goodWord w) ∧
  st.currentLengthW = joinLen st.currentChunkW ∧
  (∀ ch ∈ st.chunksW, goodChunk wordsPerChunk maxCharsPerChunk ch) ∧
  (st.currentChunkW ≠ [] → st.currentChunkW.length ≤ wordsPerChunk ∧
    (joinLen st.currentChunkW ≤ maxCharsPerChunk ∨ st.currentChunkW.length = 1))

/-- `String.prototype.replace` with a global single-character pattern:
replaces every occurrence of `key` by `r`. -/
def replaceChar (key : Char) (r : List Char) : List Char → List Char
  | [] => []
  | x :: xs => (if x = key then r else [x]) ++ replaceChar key r xs

/-- `escapeDrawtext` (lines 81-91): the seven global replacements of the
source, innermost applied first — backslash to four backslashes, ASCII
apostrophe to U+2019, then a backslash inserted before each of `:`, `[`,
`]`, `%`, `;`. -/
def escapeDrawtext (text : List Char) : List Char :=
  replaceChar ';' [bs, ';']
    (replaceChar '%' [bs, '%']
      (replaceChar ']' [bs, ']']
        (replaceChar '[' [bs, '[']
          (replaceChar ':' [bs, ':']
            (replaceChar apos [rsquo]
              (replaceChar bs [bs, bs, bs, bs] text))))))

/-- Per-character action of the composed replacements of `escapeDrawtext`. -/
def escChar (c : Char) : List Char :=
  if c = bs then [bs, bs, bs, bs]
  else if c = apos then [rsquo]
  else if c = ':' then [bs, ':']
  else if c = '[' then [bs, '[']
  else if c = ']' then [bs, ']']
  else if c = '%' then [bs, '%']
  else if c = ';' then [bs, ';']
  else [c]

/-- Single left-to-right pass applying `escChar` to every character. -/
def escFlat : List Char → List Char
  | [] => []
  | c :: cs => escChar c ++ escFlat cs

/-- The characters reserved by the drawtext filter syntax, including the
backslash itself. -/
def reservedChar (c : Char) : Bool :=
  c = ':' || c = '[' || c = ']' || c = '%' || c = ';' || c = bs

/-- The five reserved characters that get a backslash prefix. -/
def reservedFive (c : Char) : Bool :=
  c = ':' || c = '[' || c = ']' || c = '%' || c = ';'

/-- Scanner for escaped strings: a backslash escapes the character after it;
returns `true` iff no reserved character occurs unescaped (a trailing lone
backslash also counts as unescaped). -/
def noUnescaped : List Char → Bool
  | [] => true
  | c :: rest =>
    if c = bs then
      match rest with
      | [] => false
      | _ :: rest2 => noUnescaped rest2
    else
      !reservedChar c && noUnescaped rest

/-- Decimal digits of a natural number, most significant first. -/
def natDigits (n : Nat) : List Char :=
  if _h : n < 10 then [Nat.digitChar n]
  else natDigits (n / 10) ++ [Nat.digitChar (n % 10)]
decreasing_by
  exact Nat.div_lt_self (Nat.pos_of_ne_zero (by omega)) (by omega)

/-- JavaScript `Number.prototype.toFixed(3)` on a non-negative value: round
to the nearest thousandth (ties up) and print with exactly three digits after
the decimal point. -/
def toFixed3 (q : ℚ) : List Char :=
  let n : Nat := (⌊q * 1000 + 1 / 2⌋).toNat
  natDigits (n / 1000) ++
    '.' :: [Nat.digitChar (n / 100 % 10), Nat.digitChar (n / 10 % 10),
      Nat.digitChar (n % 10)]

/-- Shape of a `toFixed(3)` rendering: a non-empty digit string, a decimal
point, then exactly three digits. -/
def fixed3Shape (t : List Char) : Prop :=
  ∃ ip fp, t = ip ++ '.' :: fp ∧ ip ≠ [] ∧ (∀ c ∈ ip, c.isDigit = true) ∧
    fp.length = 3 ∧ ∀ c ∈ fp, c.isDigit = true

/-- The literal text of a drawtext directive before the opening quote of the
`text` field (line 134 of the source). -/
def dtHead : List Char := "drawtext=text=".toList

/-- The literal style attributes between the closing quote of the `text`
field and the opening quote of the `enable` value (lines 134-145). -/
def dtMid : List Char :=
  (":fontfile=/System/Library/Fonts/Supplemental/Arial Bold.ttf:" ++
   "fontsize=18:fontcolor=white:borderw=3:bordercolor=black:" ++
   "shadowcolor=black:shadowx=2:shadowy=2:" ++
   "x=(w-text_w)/2:y=h*0.40:enable=").toList

/-- The literal head of the `enable` predicate (line 145). -/
def btHead : List Char := "between(t,".toList

/-- One drawtext directive (lines 133-146): escaped chunk text in single
quotes, the fixed style attributes, and the activation window rendered with
`toFixed(3)`. -/
def buildDirective (chunk : List Char) (startTime endTime : ℚ) : List Char :=
  dtHead ++ [apos] ++ escapeDrawtext chunk ++ [apos] ++ dtMid ++
    [apos] ++ btHead ++ toFixed3 startTime ++ [','] ++ toFixed3 endTime ++
    [')', apos]

/-- The provisional timing pass of `generateSubtitleFilter` (lines 107-115):
walk the chunks accumulating `currentTime`, giving each chunk the duration
`max(weight * audioDuration, 0.5)` where `weight = chunk.length / totalChars`.
Returns the provisional `(chunk, startTime, endTime)` triples together with
the final `currentTime`. -/
def allocatePass (totalChars audioDuration : ℚ) :
    List (List Char) → ℚ → List (List Char × ℚ × ℚ) × ℚ
  | [], t => ([], t)
  | chunk :: rest, t =>
    let weight : ℚ := (chunk.length : ℚ) / totalChars
    let duration : ℚ := max (weight * audioDuration) (1 / 2)
    let pr := allocatePass totalChars audioDuration rest (t + duration)
    ((chunk, t, t + duration) :: pr.1, pr.2)

/-- The full timing allocation of `generateSubtitleFilter` (lines 103-122):
provisional pass, then every start and end time is rescaled by
`scale = audioDuration / currentTime`. -/
def allocateWindows (chunks : List (List Char)) (audioDuration : ℚ) :
    List (List Char × ℚ × ℚ) :=
  let totalChars : ℚ := ((chunks.map List.length).sum : ℚ)
  let pr := allocatePass totalChars audioDuration chunks 0
  let scale := audioDuration / pr.2
  pr.1.map (fun x => (x.1, x.2.1 * scale, x.2.2 * scale))

/-- The timed fragments computed inside `generateSubtitleFilter` for a text:
chunking with the fixed limits (3 words, 25 characters, line 101) followed by
the timing allocation. -/
def subtitleTimings (text : List Char) (audioDuration : ℚ) :
    List (List Char × ℚ × ℚ) :=
  allocateWindows (splitTextIntoChunks text 3 25) audioDuration

/-- The list of drawtext directives built by `generateSubtitleFilter`
(lines 125-147). -/
def subtitleDirectives (text : List Char) (audioDuration : ℚ) : List (List Char) :=
  (subtitleTimings text audioDuration).map (fun x => buildDirective x.1 x.2.1 x.2.2)

/-- `generateSubtitleFilter` (lines 100-150): the directives joined with
`","` (line 149). -/
def generateSubtitleFilter (text : List Char) (audioDuration : ℚ) : List Char :=
  joinWith [','] (subtitleDirectives text audioDuration)

/-- The duration check and random start-offset selection of `processVideo`
(lines 250-262): fail when the background clip is shorter than the narration,
otherwise pick `startTime = r * (videoTotalDuration - audioDuration)` where
`r` models the `Math.random()` draw. -/
def processVideoStart (videoTotalDuration audioDuration r : ℚ) :
    Except String ℚ :=
  if videoTotalDuration < audioDuration then
    Except.error "Background video is shorter than audio"
  else
    let maxStartTime := videoTotalDuration - audioDuration
    Except.ok (r * maxStartTime)

/-! ### Lemmas about joining and splitting words -/

lemma joinWith_cons_cons (sep : List Char) (w v : List Char) (ws : List (List Char)) :
    joinWith sep (w :: v :: ws) = w ++ sep ++ joinWith sep (v :: ws) := rfl

lemma joinWith_append (sep : List Char) :
    ∀ (a b : List (List Char)), a ≠ [] → b ≠ [] →
      joinWith sep (a ++ b) = joinWith sep a ++ sep ++ joinWith sep b
  | [], _, ha, _ => absurd rfl ha
  | [x], b, _, hb => by
    cases b with
    | nil => exact absurd rfl hb
    | cons y b' => simp [joinWith]
  | x :: x' :: a', b, _, hb => by
    have ih := joinWith_append sep (x' :: a') b (by simp) hb
    have hx : (x :: x' :: a') ++ b = x :: ((x' :: a') ++ b) := rfl
    rw [hx]
    cases hab : (x' :: a') ++ b with
    | nil => simp at hab
    | cons y ys =>
      rw [joinWith_cons_cons, ← hab, ih, joinWith_cons_cons]
      simp [List.append_assoc]

lemma joinLen_nil : joinLen [] = 0 := rfl

lemma joinLen_single (w : List Char) : joinLen [w] = w.length := rfl

lemma joinLen_append_single (ws : List (List Char)) (w : List Char) :
    joinLen (ws ++ [w]) =
      joinLen ws + w.length + (if 0 < ws.length then 1 else 0) := by
  cases ws with
  | nil => simp [joinLen, joinSpace, joinWith]
  | cons x xs =>
    rw [joinLen, joinSpace, joinWith_append [' '] (x :: xs) [w] (by simp) (by simp)]
    simp [joinLen, joinSpace, joinWith]
    omega

lemma joinLen_pos (ws : List (List Char)) (hne : ws ≠ [])
    (hw : ∀ w ∈ ws, w ≠ []) : 0 < joinLen ws := by
  cases ws with
  | nil => exact absurd rfl hne
  | cons x xs =>
    have hx : x ≠ [] := hw x (by simp)
    have hxlen : 0 < x.length := List.length_pos.mpr hx
    cases xs with
    | nil => simpa [joinLen, joinSpace, joinWith] using hxlen
    | cons y ys =>
      rw [joinLen, joinSpace, joinWith_cons_cons]
      simp

lemma joinLen_eq_zero_iff (ws : List (List Char)) (hw : ∀ w ∈ ws, w ≠ []) :
    joinLen ws = 0 ↔ ws = [] := by
  constructor
  · intro h
    by_contra hne
    exact absurd h (Nat.pos_iff_ne_zero.mp (joinLen_pos ws hne hw))
  · intro h; subst h; rfl

lemma splitWordsGo_good :
    ∀ (s cur : List Char), (∀ c ∈ cur, c.isWhitespace = false) →
      ∀ w ∈ splitWordsGo cur s, goodWord w := by
  intro s
  induction s with
  | nil =>
    intro cur hcur w hw
    by_cases hc : cur = []
    · simp [splitWordsGo, hc] at hw
    · simp [splitWordsGo, hc] at hw
      subst hw
      refine ⟨by simpa using hc, ?_⟩
      intro c hcmem
      exact hcur c (List.mem_reverse.mp hcmem)
  | cons c cs ih =>
    intro cur hcur w hw
    by_cases hws : c.isWhitespace = true
    · by_cases hc : cur = []
      · simp only [splitWordsGo, hws, if_true, hc, if_pos rfl] at hw
        exact ih [] (by simp) w hw
      · simp only [splitWordsGo, hws, if_true, if_neg hc, List.mem_cons] at hw
        rcases hw with hw | hw
        · subst hw
          refine ⟨by simpa using hc, ?_⟩
          intro d hdmem
          exact hcur d (List.mem_reverse.mp hdmem)
        · exact ih [] (by simp) w hw
    · simp only [splitWordsGo, hws, if_false] at hw
      refine ih (c :: cur) ?_ w hw
      intro d hd
      rcases List.mem_cons.mp hd with hd | hd
      · subst hd; simpa using hws
      · exact hcur d hd

lemma splitWords_good (s : List Char) : ∀ w ∈ splitWords s, goodWord w :=
  splitWordsGo_good s [] (by simp)

lemma splitWordsGo_word_skip :
    ∀ (w : List Char), (∀ c ∈ w, c.isWhitespace = false) →
      ∀ (cur s : List Char),
        splitWordsGo cur (w ++ s) = splitWordsGo (w.reverse ++ cur) s := by
  intro w
  induction w with
  | nil => intro _ cur s; simp
  | cons c w' ih =>
    intro hnw cur s
    have hc : c.isWhitespace = false := hnw c (by simp)
    have hw' : ∀ d ∈ w', d.isWhitespace = false := fun d hd => hnw d (by simp [hd])
    show splitWordsGo cur (c :: (w' ++ s)) = _
    rw [splitWordsGo, if_neg (by simp [hc]), ih hw' (c :: cur) s]
    simp

lemma splitWords_joinWith :
    ∀ (ws : List (List Char)), (∀ w ∈ ws, goodWord w) →
      splitWords (joinWith [' '] ws) = ws := by
  intro ws
  induction ws with
  | nil => intro _; rfl
  | cons w vs ih =>
    intro h
    have hw : goodWord w := h w (by simp)
    cases vs with
    | nil =>
      show splitWordsGo [] w = [w]
      have := splitWordsGo_word_skip w hw.2 [] []
      rw [List.append_nil] at this
      rw [this, splitWordsGo, if_neg (by simpa using hw.1)]
      simp
    | cons v vs' =>
      have hrest : ∀ u ∈ v :: vs', goodWord u := fun u hu => h u (by simp [hu])
      rw [joinWith_cons_cons, List.append_assoc]
      show splitWordsGo [] (w ++ (' ' :: joinWith [' '] (v :: vs'))) = _
      rw [splitWordsGo_word_skip w hw.2 [] _, List.append_nil, splitWordsGo,
        if_pos (by simp), if_neg (by simpa using hw.1)]
      rw [List.reverse_reverse]
      exact congrArg (w :: ·) (ih hrest)

lemma splitWordsGo_ws_only :
    ∀ (s : List Char), (∀ c ∈ s, c.isWhitespace = true) →
      splitWordsGo [] s = [] := by
  intro s
  induction s with
  | nil => intro _; rfl
  | cons c cs ih =>
    intro h
    rw [splitWordsGo, if_pos (by simpa using h c (by simp)), if_pos rfl]
    exact ih fun d hd => h d (by simp [hd])

lemma splitWords_ws_only (s : List Char) (h : ∀ c ∈ s, c.isWhitespace = true) :
    splitWords s = [] :=
  splitWordsGo_ws_only s h

/-! ### The chunker: correspondence with the ghost run and loop invariant -/

lemma chunkStep_corr (wordsPerChunk maxCharsPerChunk : Nat) (st : ChunkStW)
    (word : List Char) :
    chunkStep wordsPerChunk maxCharsPerChunk
        ⟨st.chunksW.map joinSpace, st.currentChunkW, st.currentLengthW⟩ word =
      ⟨(chunkStepW wordsPerChunk maxCharsPerChunk st word).chunksW.map joinSpace,
        (chunkStepW wordsPerChunk maxCharsPerChunk st word).currentChunkW,
        (chunkStepW wordsPerChunk maxCharsPerChunk st word).currentLengthW⟩ := by
  simp only [chunkStep, chunkStepW]
  by_cases hcond : wordsPerChunk ≤ st.currentChunkW.length ∨
      (0 < st.currentLengthW ∧ maxCharsPerChunk <
        st.currentLengthW + word.length + (if 0 < st.currentChunkW.length then 1 else 0))
  · simp only [if_pos hcond, List.map_append, apply_ite (List.map joinSpace),
      List.map_cons, List.map_nil]
  · simp only [if_neg hcond]

lemma chunkFold_corr (wordsPerChunk maxCharsPerChunk : Nat) :
    ∀ (ws : List (List Char)) (st : ChunkStW),
      ws.foldl (chunkStep wordsPerChunk maxCharsPerChunk)
          ⟨st.chunksW.map joinSpace, st.currentChunkW, st.currentLengthW⟩ =
        ⟨(ws.foldl (chunkStepW wordsPerChunk maxCharsPerChunk) st).chunksW.map joinSpace,
          (ws.foldl (chunkStepW wordsPerChunk maxCharsPerChunk) st).currentChunkW,
          (ws.foldl (chunkStepW wordsPerChunk maxCharsPerChunk) st).currentLengthW⟩ := by
  intro ws
  induction ws with
  | nil => intro st; rfl
  | cons w ws ih =>
    intro st
    rw [List.foldl_cons, List.foldl_cons,
      chunkStep_corr wordsPerChunk maxCharsPerChunk st w,
      ih (chunkStepW wordsPerChunk maxCharsPerChunk st w)]

lemma splitTextIntoChunks_eq_run (text : List Char) (wordsPerChunk maxCharsPerChunk : Nat) :
    splitTextIntoChunks text wordsPerChunk maxCharsPerChunk =
      (chunkWordsRun (splitWords text) wordsPerChunk maxCharsPerChunk).map joinSpace := by
  have h := chunkFold_corr wordsPerChunk maxCharsPerChunk (splitWords text) ⟨[], [], 0⟩
  simp only [List.map_nil] at h
  simp only [splitTextIntoChunks, chunkWordsRun, h, List.map_append,
    apply_ite (List.map joinSpace), List.map_cons, List.map_nil]

lemma chunkStepW_inv (wordsPerChunk maxCharsPerChunk : Nat) (hw : 1 ≤ wordsPerChunk)
    (st : ChunkStW) (word : List Char) (hst : InvW wordsPerChunk maxCharsPerChunk st)
    (hword : goodWord word) :
    InvW wordsPerChunk maxCharsPerChunk (chunkStepW wordsPerChunk maxCharsPerChunk st word) ∧
      (chunkStepW wordsPerChunk maxCharsPerChunk st word).chunksW.flatten ++
          (chunkStepW wordsPerChunk maxCharsPerChunk st word).currentChunkW =
        st.chunksW.flatten ++ st.currentChunkW ++ [word] := by
  obtain ⟨h1, h2, h3, h4⟩ := hst
  have hccw : ∀ u ∈ st.currentChunkW, u ≠ [] := fun u hu => (h1 u hu).1
  simp only [chunkStepW]
  split
  · -- the current chunk is non-empty
    next hlen =>
    have hcc : st.currentChunkW ≠ [] := by
      intro hnil
      rw [hnil] at hlen
      simp at hlen
    split
    · -- flush branch
      refine ⟨⟨?_, ?_, ?_, ?_⟩, ?_⟩
      · intro u hu
        simp at hu
        subst hu
        exact hword
      · simp [joinLen_single]
      · intro ch hch
        rcases List.mem_append.mp hch with hch | hch
        · exact h3 ch hch
        · simp at hch
          subst hch
          exact ⟨hcc, h1, (h4 hcc).1, (h4 hcc).2⟩
      · intro _
        exact ⟨by simpa using hw, Or.inr rfl⟩
      · simp [List.flatten_append, List.append_assoc]
    · -- append branch
      next hcond =>
      have hneg := hcond
      push_neg at hneg
      obtain ⟨hlt, himp⟩ := hneg
      refine ⟨⟨?_, ?_, ?_, ?_⟩, ?_⟩
      · intro u hu
        rcases List.mem_append.mp hu with hu | hu
        · exact h1 u hu
        · simp at hu
          subst hu
          exact hword
      · show st.currentLengthW + word.length + 1 = joinLen (st.currentChunkW ++ [word])
        rw [joinLen_append_single, ← h2, if_pos hlen]
      · exact h3
      · intro _
        constructor
        · simp
          omega
        · left
          have hpos : 0 < st.currentLengthW := by
            rw [h2]
            exact joinLen_pos st.currentChunkW hcc hccw
          have hle := himp hpos
          show joinLen (st.currentChunkW ++ [word]) ≤ maxCharsPerChunk
          rw [joinLen_append_single, ← h2, if_pos hlen]
          exact hle
      · simp [List.append_assoc]
  · -- the current chunk is empty
    next hlen0 =>
    have hnil : st.currentChunkW = [] := by
      cases hm : st.currentChunkW with
      | nil => rfl
      | cons a l => rw [hm] at hlen0; simp at hlen0
    have hcl : st.currentLengthW = 0 := by rw [h2, hnil]; rfl
    split
    · -- flush branch is impossible for an empty current chunk
      next hcond =>
      exfalso
      rcases hcond with hcond | hcond
      · rw [hnil] at hcond
        simp at hcond
        omega
      · rw [hcl] at hcond
        simp at hcond
    · -- append branch: the chunk becomes the single word
      refine ⟨⟨?_, ?_, ?_, ?_⟩, ?_⟩
      · intro u hu
        rcases List.mem_append.mp hu with hu | hu
        · exact h1 u hu
        · simp at hu
          subst hu
          exact hword
      · show st.currentLengthW + word.length + 0 = joinLen (st.currentChunkW ++ [word])
        rw [joinLen_append_single, ← h2, if_neg hlen0]
      · exact h3
      · intro _
        constructor
        · rw [hnil]
          simpa using hw
        · right
          rw [hnil]
          rfl
      · simp [List.append_assoc]

lemma chunkFoldW_inv (wordsPerChunk maxCharsPerChunk : Nat) (hw : 1 ≤ wordsPerChunk) :
    ∀ (ws : List (List Char)) (st : ChunkStW), (∀ w ∈ ws, goodWord w) →
      InvW wordsPerChunk maxCharsPerChunk st →
      InvW wordsPerChunk maxCharsPerChunk
          (ws.foldl (chunkStepW wordsPerChunk maxCharsPerChunk) st) ∧
        (ws.foldl (chunkStepW wordsPerChunk maxCharsPerChunk) st).chunksW.flatten ++
            (ws.foldl (chunkStepW wordsPerChunk maxCharsPerChunk) st).currentChunkW =
          st.chunksW.flatten ++ st.currentChunkW ++ ws := by
  intro ws
  induction ws with
  | nil =>
    intro st _ hst
    refine ⟨hst, by simp⟩
  | cons w ws ih =>
    intro st hws hst
    have hstep := chunkStepW_inv wordsPerChunk maxCharsPerChunk hw st w hst (hws w (by simp))
    have hrest := ih (chunkStepW wordsPerChunk maxCharsPerChunk st w)
      (fun u hu => hws u (by simp [hu])) hstep.1
    refine ⟨hrest.1, ?_⟩
    rw [List.foldl_cons, hrest.2, hstep.2]
    simp [List.append_assoc]

lemma chunkWordsRun_spec (wordsPerChunk maxCharsPerChunk : Nat) (hw : 1 ≤ wordsPerChunk)
    (ws : List (List Char)) (hws : ∀ w ∈ ws, goodWord w) :
    (∀ ch ∈ chunkWordsRun ws wordsPerChunk maxCharsPerChunk,
        goodChunk wordsPerChunk maxCharsPerChunk ch) ∧
      (chunkWordsRun ws wordsPerChunk maxCharsPerChunk).flatten = ws := by
  have hinit : InvW wordsPerChunk maxCharsPerChunk ⟨[], [], 0⟩ := by
    refine ⟨by simp, rfl, by simp, by simp⟩
  have h := chunkFoldW_inv wordsPerChunk maxCharsPerChunk hw ws ⟨[], [], 0⟩ hws hinit
  obtain ⟨⟨i1, i2, i3, i4⟩, hflat⟩ := h
  simp only [List.flatten_nil, List.nil_append] at hflat
  constructor
  · intro ch hch
    simp only [chunkWordsRun] at hch
    rcases List.mem_append.mp hch with hch | hch
    · exact i3 ch hch
    · by_cases hcc : 0 <
        (ws.foldl (chunkStepW wordsPerChunk maxCharsPerChunk) ⟨[], [], 0⟩).currentChunkW.length
      · rw [if_pos hcc] at hch
        simp at hch
        subst hch
        have hne : (ws.foldl (chunkStepW wordsPerChunk maxCharsPerChunk)
            ⟨[], [], 0⟩).currentChunkW ≠ [] := by
          intro hnil
          rw [hnil] at hcc
          simp at hcc
        exact ⟨hne, i1, (i4 hne).1, (i4 hne).2⟩
      · rw [if_neg hcc] at hch
        simp at hch
  · simp only [chunkWordsRun]
    by_cases hcc : 0 <
        (ws.foldl (chunkStepW wordsPerChunk maxCharsPerChunk) ⟨[], [], 0⟩).currentChunkW.length
    · rw [if_pos hcc, List.flatten_append]
      simpa using hflat
    · rw [if_neg hcc]
      have hnil : (ws.foldl (chunkStepW wordsPerChunk maxCharsPerChunk)
          ⟨[], [], 0⟩).currentChunkW = [] := by
        cases hm : (ws.foldl (chunkStepW wordsPerChunk maxCharsPerChunk)
            ⟨[], [], 0⟩).currentChunkW with
        | nil => rfl
        | cons a l => rw [hm] at hcc; simp at hcc
      rw [hnil, List.append_nil] at hflat
      simpa using hflat

/-! ### Lemmas about the timing allocation -/

lemma allocatePass_nil (T D t : ℚ) : allocatePass T D [] t = ([], t) := rfl

lemma allocatePass_cons (T D : ℚ) (c : List Char) (rest : List (List Char)) (t : ℚ) :
    allocatePass T D (c :: rest) t =
      ((c, t, t + max ((c.length : ℚ) / T * D) (1 / 2)) ::
          (allocatePass T D rest (t + max ((c.length : ℚ) / T * D) (1 / 2))).1,
        (allocatePass T D rest (t + max ((c.length : ℚ) / T * D) (1 / 2))).2) := rfl

lemma allocatePass_length (T D : ℚ) :
    ∀ (chunks : List (List Char)) (t : ℚ),
      (allocatePass T D chunks t).1.length = chunks.length := by
  intro chunks
  induction chunks with
  | nil => intro t; rfl
  | cons c rest ih =>
    intro t
    rw [allocatePass_cons]
    simp [ih]

lemma allocatePass_duration (T D : ℚ) :
    ∀ (chunks : List (List Char)) (t : ℚ),
      ∀ x ∈ (allocatePass T D chunks t).1,
        x.2.2 - x.2.1 = max ((x.1.length : ℚ) / T * D) (1 / 2) := by
  intro chunks
  induction chunks with
  | nil => intro t x hx; simp [allocatePass_nil] at hx
  | cons c rest ih =>
    intro t x hx
    rw [allocatePass_cons] at hx
    rcases List.mem_cons.mp hx with hx | hx
    · subst hx
      simp
    · exact ih _ x hx

lemma allocatePass_chain (T D : ℚ) :
    ∀ (chunks : List (List Char)) (t : ℚ),
      List.Chain' (fun a b => a.2.2 = b.2.1) (allocatePass T D chunks t).1 := by
  intro chunks
  induction chunks with
  | nil => intro t; simp [allocatePass_nil]
  | cons c rest ih =>
    intro t
    rw [allocatePass_cons]
    rw [List.chain'_cons']
    refine ⟨?_, ih _⟩
    intro b hb
    cases rest with
    | nil => simp [allocatePass_nil] at hb
    | cons r rs =>
      rw [allocatePass_cons] at hb
      simp at hb
      subst hb
      norm_num

lemma allocatePass_final (T D : ℚ) :
    ∀ (chunks : List (List Char)) (t : ℚ),
      (allocatePass T D chunks t).2 =
        t + (chunks.map (fun c => max ((c.length : ℚ) / T * D) (1 / 2))).sum := by
  intro chunks
  induction chunks with
  | nil => intro t; simp [allocatePass_nil]
  | cons c rest ih =>
    intro t
    rw [allocatePass_cons]
    simp only [List.map_cons, List.sum_cons]
    rw [ih]
    ring

lemma allocatePass_getLast (T D : ℚ) :
    ∀ (chunks : List (List Char)) (t : ℚ), chunks ≠ [] →
      (allocatePass T D chunks t).1.getLast?.map (fun x => x.2.2) =
        some (allocatePass T D chunks t).2 := by
  intro chunks
  induction chunks with
  | nil => intro t h; exact absurd rfl h
  | cons c rest ih =>
    intro t _
    cases rest with
    | nil => rfl
    | cons r rs =>
      rw [allocatePass_cons, allocatePass_cons]
      rw [List.getLast?_cons_cons]
      exact ih (t + max ((c.length : ℚ) / T * D) (1 / 2)) (by simp)

lemma allocatePass_le_final (T D : ℚ) :
    ∀ (chunks : List (List Char)) (t : ℚ), t ≤ (allocatePass T D chunks t).2 := by
  intro chunks
  induction chunks with
  | nil => intro t; simp [allocatePass_nil]
  | cons c rest ih =>
    intro t
    rw [allocatePass_cons]
    refine le_trans ?_ (ih (t + max ((c.length : ℚ) / T * D) (1 / 2)))
    have : (0 : ℚ) < max ((c.length : ℚ) / T * D) (1 / 2) :=
      lt_of_lt_of_le (by norm_num) (le_max_right _ _)
    linarith

lemma allocatePass_final_lb (T D : ℚ) (chunks : List (List Char)) (t : ℚ)
    (hne : chunks ≠ []) : t + 1 / 2 ≤ (allocatePass T D chunks t).2 := by
  cases chunks with
  | nil => exact absurd rfl hne
  | cons c rest =>
    rw [allocatePass_cons]
    refine le_trans ?_ (allocatePass_le_final T D rest _)
    have : (1 : ℚ) / 2 ≤ max ((c.length : ℚ) / T * D) (1 / 2) := le_max_right _ _
    linarith

lemma allocateWindows_spec (chunks : List (List Char)) (D : ℚ)
    (hne : chunks ≠ []) (hD : 0 < D) :
    (allocateWindows chunks D).head?.map (fun x => x.2.1) = some 0 ∧
      List.Chain' (fun a b => a.2.2 = b.2.1) (allocateWindows chunks D) ∧
      (∀ x ∈ allocateWindows chunks D, x.2.1 < x.2.2) ∧
      (allocateWindows chunks D).getLast?.map (fun x => x.2.2) = some D := by
  simp only [allocateWindows]
  have hpos : 0 < (allocatePass ((chunks.map List.length).sum : ℚ) D chunks 0).2 := by
    have := allocatePass_final_lb ((chunks.map List.length).sum : ℚ) D chunks 0 hne
    linarith
  have hscale : 0 < D / (allocatePass ((chunks.map List.length).sum : ℚ) D chunks 0).2 :=
    div_pos hD hpos
  refine ⟨?_, ?_, ?_, ?_⟩
  · rw [List.head?_map]
    cases chunks with
    | nil => exact absurd rfl hne
    | cons c rest =>
      rw [allocatePass_cons]
      simp
  · rw [List.chain'_map]
    refine (allocatePass_chain _ D chunks 0).imp ?_
    intro a b h
    simp only
    rw [h]
  · intro x hx
    rcases List.mem_map.mp hx with ⟨y, hy, rfl⟩
    have hdur := allocatePass_duration _ D chunks 0 y hy
    have hhalf : (1 : ℚ) / 2 ≤ y.2.2 - y.2.1 := hdur ▸ le_max_right _ _
    have hlt : y.2.1 < y.2.2 := by linarith
    exact mul_lt_mul_of_pos_right hlt hscale
  · rw [List.getLast?_map]
    have hlast := allocatePass_getLast ((chunks.map List.length).sum : ℚ) D chunks 0 hne
    cases hm : (allocatePass ((chunks.map List.length).sum : ℚ) D chunks 0).1.getLast? with
    | none => rw [hm] at hlast; simp at hlast
    | some y =>
      rw [hm] at hlast
      simp only [Option.map_some'] at hlast ⊢
      have hy : y.2.2 = (allocatePass ((chunks.map List.length).sum : ℚ) D chunks 0).2 :=
        Option.some.inj hlast
      rw [Option.some.injEq, hy, mul_comm, div_mul_cancel₀ D (ne_of_gt hpos)]

/-! ### Lemmas about drawtext escaping -/

lemma replaceChar_append (key : Char) (r : List Char) :
    ∀ (a b : List Char), replaceChar key r (a ++ b) =
      replaceChar key r a ++ replaceChar key r b := by
  intro a b
  induction a with
  | nil => rfl
  | cons x xs ih =>
    show (if x = key then r else [x]) ++ replaceChar key r (xs ++ b) =
      ((if x = key then r else [x]) ++ replaceChar key r xs) ++ replaceChar key r b
    rw [ih, List.append_assoc]

lemma escapeDrawtext_append (a b : List Char) :
    escapeDrawtext (a ++ b) = escapeDrawtext a ++ escapeDrawtext b := by
  simp only [escapeDrawtext, replaceChar_append]

lemma escapeDrawtext_single (c : Char) : escapeDrawtext [c] = escChar c := by
  by_cases h1 : c = bs
  · subst h1; decide
  by_cases h2 : c = apos
  · subst h2; decide
  by_cases h3 : c = ':'
  · subst h3; decide
  by_cases h4 : c = '['
  · subst h4; decide
  by_cases h5 : c = ']'
  · subst h5; decide
  by_cases h6 : c = '%'
  · subst h6; decide
  by_cases h7 : c = ';'
  · subst h7; decide
  simp [escapeDrawtext, replaceChar, escChar, h1, h2, h3, h4, h5, h6, h7]

lemma escapeDrawtext_eq_escFlat : ∀ s : List Char, escapeDrawtext s = escFlat s := by
  intro s
  induction s with
  | nil => rfl
  | cons c cs ih =>
    have hc : c :: cs = [c] ++ cs := rfl
    rw [hc, escapeDrawtext_append, escapeDrawtext_single, ih]
    rfl

lemma noUnescaped_escChar (c : Char) (rest : List Char) :
    noUnescaped (escChar c ++ rest) = noUnescaped rest := by
  by_cases h1 : c = bs
  · subst h1; simp [escChar, noUnescaped]
  by_cases h2 : c = apos
  · subst h2
    have hesc : escChar apos = [rsquo] := by decide
    have ha : ¬(rsquo = bs) := by decide
    have hb : reservedChar rsquo = false := by decide
    rw [hesc]
    show noUnescaped (rsquo :: rest) = noUnescaped rest
    unfold noUnescaped
    simp [ha, hb]
    exact noUnescaped.eq_def rest
  by_cases h3 : c = ':'
  · subst h3; simp [escChar, noUnescaped]
  by_cases h4 : c = '['
  · subst h4; simp [escChar, noUnescaped]
  by_cases h5 : c = ']'
  · subst h5; simp [escChar, noUnescaped]
  by_cases h6 : c = '%'
  · subst h6; simp [escChar, noUnescaped]
  by_cases h7 : c = ';'
  · subst h7; simp [escChar, noUnescaped]
  have hres : reservedChar c = false := by
    simp [reservedChar, h1, h3, h4, h5, h6, h7]
  have hesc : escChar c = [c] := by
    simp [escChar, h1, h2, h3, h4, h5, h6, h7]
  rw [hesc]
  show noUnescaped (c :: rest) = noUnescaped rest
  unfold noUnescaped
  simp [h1, hres]
  exact noUnescaped.eq_def rest

lemma noUnescaped_escFlat (s : List Char) : noUnescaped (escFlat s) = true := by
  induction s with
  | nil => rfl
  | cons c cs ih =>
    show noUnescaped (escChar c ++ escFlat cs) = true
    rw [noUnescaped_escChar, ih]

lemma apos_not_mem_escChar (c : Char) : apos ∉ escChar c := by
  by_cases h1 : c = bs
  · subst h1; decide
  by_cases h2 : c = apos
  · subst h2; decide
  by_cases h3 : c = ':'
  · subst h3; decide
  by_cases h4 : c = '['
  · subst h4; decide
  by_cases h5 : c = ']'
  · subst h5; decide
  by_cases h6 : c = '%'
  · subst h6; decide
  by_cases h7 : c = ';'
  · subst h7; decide
  simp [escChar, h1, h2, h3, h4, h5, h6, h7]
  intro hcontra
  exact h2 hcontra.symm

lemma apos_not_mem_escapeDrawtext (s : List Char) : apos ∉ escapeDrawtext s := by
  rw [escapeDrawtext_eq_escFlat]
  induction s with
  | nil => simp [escFlat]
  | cons c cs ih =>
    show apos ∉ escChar c ++ escFlat cs
    rw [List.mem_append]
    rintro (h | h)
    · exact apos_not_mem_escChar c h
    · exact ih h

lemma count_rsquo_escChar (c : Char) :
    (escChar c).count rsquo =
      (if c = apos then 1 else 0) + (if c = rsquo then 1 else 0) := by
  by_cases h1 : c = bs
  · subst h1; decide
  by_cases h2 : c = apos
  · subst h2; decide
  by_cases h3 : c = ':'
  · subst h3; decide
  by_cases h4 : c = '['
  · subst h4; decide
  by_cases h5 : c = ']'
  · subst h5; decide
  by_cases h6 : c = '%'
  · subst h6; decide
  by_cases h7 : c = ';'
  · subst h7; decide
  simp only [escChar, h1, h2, h3, h4, h5, h6, h7, if_false, if_neg]
  by_cases h8 : c = rsquo
  · subst h8; decide
  · simp [List.count_cons, h2, h8]

lemma count_bs_escChar (c : Char) :
    (escChar c).count bs =
      4 * (if c = bs then 1 else 0) + (if reservedFive c then 1 else 0) := by
  by_cases h1 : c = bs
  · subst h1; decide
  by_cases h2 : c = apos
  · subst h2; decide
  by_cases h3 : c = ':'
  · subst h3; decide
  by_cases h4 : c = '['
  · subst h4; decide
  by_cases h5 : c = ']'
  · subst h5; decide
  by_cases h6 : c = '%'
  · subst h6; decide
  by_cases h7 : c = ';'
  · subst h7; decide
  have hres : reservedFive c = false := by
    simp [reservedFive, h3, h4, h5, h6, h7]
  simp [escChar, h1, h2, h3, h4, h5, h6, h7, hres, List.count_cons]

lemma count_rsquo_escapeDrawtext (s : List Char) :
    (escapeDrawtext s).count rsquo = s.count apos + s.count rsquo := by
  rw [escapeDrawtext_eq_escFlat]
  induction s with
  | nil => rfl
  | cons c cs ih =>
    show (escChar c ++ escFlat cs).count rsquo = _
    rw [List.count_append, count_rsquo_escChar, ih]
    simp only [List.count_cons]
    by_cases h2 : c = apos
    · subst h2
      have : ¬(apos = rsquo) := by decide
      simp [this]
      omega
    · by_cases h8 : c = rsquo
      · subst h8
        have : ¬(rsquo = apos) := by decide
        simp [this]
        omega
      · simp [h2, h8]

lemma count_bs_escapeDrawtext (s : List Char) :
    (escapeDrawtext s).count bs = 4 * s.count bs + s.countP reservedFive := by
  rw [escapeDrawtext_eq_escFlat]
  induction s with
  | nil => rfl
  | cons c cs ih =>
    show (escChar c ++ escFlat cs).count bs = _
    rw [List.count_append, count_bs_escChar, ih]
    simp only [List.count_cons, List.countP_cons]
    by_cases h1 : c = bs
    · subst h1
      have : reservedFive bs = false := by decide
      simp [this]
      omega
    · by_cases h8 : reservedFive c
      · simp [h1, h8]
        omega
      · simp [h1, h8]

/-! ### Lemmas about decimal rendering -/

lemma digitChar_isDigit : ∀ d : Nat, d < 10 → (Nat.digitChar d).isDigit = true := by
  decide

lemma natDigits_spec (n : Nat) :
    natDigits n ≠ [] ∧ ∀ c ∈ natDigits n, c.isDigit = true := by
  induction n using Nat.strong_induction_on with
  | _ n ih =>
    by_cases h : n < 10
    · rw [natDigits, dif_pos h]
      exact ⟨by simp, by simpa using digitChar_isDigit n h⟩
    · rw [natDigits, dif_neg h]
      have hdiv : n / 10 < n :=
        Nat.div_lt_self (Nat.pos_of_ne_zero (by omega)) (by norm_num)
      have hprev := ih (n / 10) hdiv
      constructor
      · intro hnil
        exact hprev.1 (List.append_eq_nil.mp hnil).1
      · intro c hc
        rcases List.mem_append.mp hc with hc | hc
        · exact hprev.2 c hc
        · simp at hc
          subst hc
          exact digitChar_isDigit _ (Nat.mod_lt _ (by norm_num))

lemma toFixed3_shape (q : ℚ) : fixed3Shape (toFixed3 q) := by
  refine ⟨natDigits ((⌊q * 1000 + 1 / 2⌋).toNat / 1000),
    [Nat.digitChar ((⌊q * 1000 + 1 / 2⌋).toNat / 100 % 10),
      Nat.digitChar ((⌊q * 1000 + 1 / 2⌋).toNat / 10 % 10),
      Nat.digitChar ((⌊q * 1000 + 1 / 2⌋).toNat % 10)], rfl,
    (natDigits_spec _).1, (natDigits_spec _).2, rfl, ?_⟩
  intro c hc
  simp at hc
  rcases hc with hc | hc | hc <;>
    (subst hc; exact digitChar_isDigit _ (Nat.mod_lt _ (by norm_num)))

/-! ### Flattening nested joins -/

lemma joinWith_flatten :
    ∀ (css : List (List (List Char))), (∀ cs ∈ css, cs ≠ []) →
      joinWith [' '] (css.map joinSpace) = joinWith [' '] css.flatten := by
  intro css
  induction css with
  | nil => intro _; rfl
  | cons cs rest ih =>
    intro h
    have hcs : cs ≠ [] := h cs (by simp)
    cases rest with
    | nil =>
      show joinWith [' '] [joinSpace cs] = joinWith [' '] [cs].flatten
      simp only [List.flatten_cons, List.flatten_nil, List.append_nil]
      rfl
    | cons cs2 rest2 =>
      have hcs2 : cs2 ≠ [] := h cs2 (by simp)
      have hfl : (cs2 :: rest2).flatten ≠ [] := by
        simp only [List.flatten_cons]
        intro hcontra
        exact hcs2 (List.append_eq_nil.mp hcontra).1
      have ihh := ih (fun cs' h' => h cs' (by simp [h']))
      show joinWith [' '] (joinSpace cs :: (cs2 :: rest2).map joinSpace) = _
      have hmap : (cs2 :: rest2).map joinSpace = joinSpace cs2 :: rest2.map joinSpace :=
        rfl
      rw [hmap, joinWith_cons_cons, ← hmap, ihh]
      show _ = joinWith [' '] (cs ++ (cs2 :: rest2).flatten)
      rw [joinWith_append [' '] cs _ hcs hfl]
      rfl

/-! ### The claims -/

/-- Claim C2: for every non-empty input text and limits `maxWordsPerChunk ≥ 1`,
`maxCharsPerChunk ≥ 1`, joining the fragments returned by
`splitTextIntoChunks` with single spaces and re-splitting on whitespace
yields exactly the whitespace-split word sequence of the original text. -/
theorem chunks_preserve_words (text : List Char) (wordsPerChunk maxCharsPerChunk : Nat)
    (_hne : text ≠ []) (hw : 1 ≤ wordsPerChunk) (_hc : 1 ≤ maxCharsPerChunk) :
    splitWords (joinWith [' '] (splitTextIntoChunks text wordsPerChunk maxCharsPerChunk)) =
      splitWords text := by
  rw [splitTextIntoChunks_eq_run]
  have hspec := chunkWordsRun_spec wordsPerChunk maxCharsPerChunk hw (splitWords text)
    (splitWords_good text)
  rw [joinWith_flatten _ (fun cs hcs => (hspec.1 cs hcs).1), hspec.2]
  exact splitWords_joinWith (splitWords text) (splitWords_good text)

/-- Witness for C2 at a concrete input. -/
theorem chunks_preserve_words_witness :
    splitWords (joinWith [' '] (splitTextIntoChunks "a b".toList 3 25)) =
      splitWords "a b".toList :=
  chunks_preserve_words "a b".toList 3 25 (by decide) (by decide) (by decide)

/-- Claim C3: every fragment returned by `splitTextIntoChunks` holds at most
`maxWordsPerChunk` words and at most `maxCharsPerChunk` characters, unless it
is a single word that is itself longer than `maxCharsPerChunk`. -/
theorem chunk_size_limits (text : List Char) (wordsPerChunk maxCharsPerChunk : Nat)
    (hw : 1 ≤ wordsPerChunk) (_hc : 1 ≤ maxCharsPerChunk) :
    ∀ chunk ∈ splitTextIntoChunks text wordsPerChunk maxCharsPerChunk,
      (splitWords chunk).length ≤ wordsPerChunk ∧
        (chunk.length ≤ maxCharsPerChunk ∨
          ∃ w, splitWords chunk = [w] ∧ maxCharsPerChunk < w.length) := by
  rw [splitTextIntoChunks_eq_run]
  intro chunk hchunk
  rcases List.mem_map.mp hchunk with ⟨ch, hch, rfl⟩
  obtain ⟨hne, hwords, hcount, hchars⟩ := (chunkWordsRun_spec wordsPerChunk
    maxCharsPerChunk hw (splitWords text) (splitWords_good text)).1 ch hch
  have hsplit : splitWords (joinSpace ch) = ch := splitWords_joinWith ch hwords
  constructor
  · rw [hsplit]
    exact hcount
  · rcases hchars with hchars | hchars
    · left
      exact hchars
    · cases ch with
      | nil => simp at hchars
      | cons w rest =>
        cases rest with
        | nil =>
          by_cases hle : (joinSpace [w]).length ≤ maxCharsPerChunk
          · left
            exact hle
          · right
            refine ⟨w, by rw [hsplit], ?_⟩
            have hlen : (joinSpace [w]).length = w.length := rfl
            omega
        | cons w2 rest2 => simp at hchars

/-- Witness for C3 at a concrete input and a concrete emitted chunk. -/
theorem chunk_size_limits_witness :
    (splitWords "a b".toList).length ≤ 3 ∧
      ("a b".toList.length ≤ 25 ∨
        ∃ w, splitWords "a b".toList = [w] ∧ 25 < w.length) :=
  chunk_size_limits "a b".toList 3 25 (by decide) (by decide) "a b".toList (by decide)

/-- Claim C4: after `escapeDrawtext` no reserved character of the drawtext
syntax (colon, square brackets, percent, semicolon, or an original backslash)
occurs unescaped in the output, and every ASCII apostrophe of the input is
replaced by U+2019 (never backslash-escaped): the output holds no apostrophe
at all, gains one U+2019 per input apostrophe, and each original backslash
becomes a fully escaped run of four backslashes. -/
theorem escapeDrawtext_no_unescaped (s : List Char) :
    noUnescaped (escapeDrawtext s) = true ∧
      apos ∉ escapeDrawtext s ∧
      (escapeDrawtext s).count rsquo = s.count apos + s.count rsquo ∧
      (escapeDrawtext s).count bs = 4 * s.count bs + s.countP reservedFive := by
  refine ⟨?_, apos_not_mem_escapeDrawtext s, count_rsquo_escapeDrawtext s,
    count_bs_escapeDrawtext s⟩
  rw [escapeDrawtext_eq_escFlat]
  exact noUnescaped_escFlat s

/-- Claim C7: for text that is empty or entirely whitespace, the chunker
returns no fragments and `generateSubtitleFilter` returns the empty filter
expression, for every positive duration. -/
theorem empty_text_empty_filter (text : List Char)
    (hws : ∀ c ∈ text, c.isWhitespace = true)
    (wordsPerChunk maxCharsPerChunk : Nat) (D : ℚ) (_hD : 0 < D) :
    splitTextIntoChunks text wordsPerChunk maxCharsPerChunk = [] ∧
      generateSubtitleFilter text D = [] := by
  have hsplit := splitWords_ws_only text hws
  have hchunks : ∀ wpc mcc : Nat, splitTextIntoChunks text wpc mcc = [] := by
    intro wpc mcc
    simp [splitTextIntoChunks, hsplit]
  refine ⟨hchunks _ _, ?_⟩
  simp [generateSubtitleFilter, subtitleDirectives, subtitleTimings, hchunks,
    allocateWindows, allocatePass_nil, joinWith]

/-- Witness for C7 at a concrete input. -/
theorem empty_text_empty_filter_witness :
    splitTextIntoChunks "  ".toList 3 25 = [] ∧
      generateSubtitleFilter "  ".toList 2 = [] :=
  empty_text_empty_filter "  ".toList (by decide) 3 25 2 (by norm_num)

/-- Claim C8: the duration check of `processVideo` fails exactly when the
background clip is shorter than the narration; otherwise, for a random draw
`r` in `[0, 1)`, the selected offset is `r * (background - narration)`, which
is non-negative and keeps the narration inside the clip. -/
theorem processVideo_offset_spec (videoTotalDuration audioDuration r : ℚ)
    (h0 : 0 ≤ r) (h1 : r < 1) :
    ((∃ msg, processVideoStart videoTotalDuration audioDuration r =
        Except.error msg) ↔ videoTotalDuration < audioDuration) ∧
      (audioDuration ≤ videoTotalDuration →
        processVideoStart videoTotalDuration audioDuration r =
            Except.ok (r * (videoTotalDuration - audioDuration)) ∧
          0 ≤ r * (videoTotalDuration - audioDuration) ∧
          r * (videoTotalDuration - audioDuration) + audioDuration ≤
            videoTotalDuration) := by
  unfold processVideoStart
  by_cases h : videoTotalDuration < audioDuration
  · rw [if_pos h]
    constructor
    · exact ⟨fun _ => h, fun _ => ⟨_, rfl⟩⟩
    · intro hle
      exact absurd h (not_lt.mpr hle)
  · rw [if_neg h]
    constructor
    · constructor
      · rintro ⟨msg, hmsg⟩
        exact absurd hmsg (by simp)
      · intro hlt
        exact absurd hlt h
    · intro hle
      refine ⟨rfl, mul_nonneg h0 (by linarith), ?_⟩
      have hsub : 0 ≤ videoTotalDuration - audioDuration := by linarith
      have hmul := mul_le_mul_of_nonneg_right (le_of_lt h1) hsub
      rw [one_mul] at hmul
      linarith

/-- Witness for C8 at a concrete input. -/
theorem processVideo_offset_spec_witness :
    ((∃ msg, processVideoStart 10 3 (1 / 2) = Except.error msg) ↔ (10 : ℚ) < 3) ∧
      ((3 : ℚ) ≤ 10 →
        processVideoStart 10 3 (1 / 2) = Except.ok (1 / 2 * (10 - 3)) ∧
          (0 : ℚ) ≤ 1 / 2 * (10 - 3) ∧ (1 : ℚ) / 2 * (10 - 3) + 3 ≤ 10) :=
  processVideo_offset_spec 10 3 (1 / 2) (by norm_num) (by norm_num)

/-- Claim C1: for every text whose chunking is non-empty and every positive
duration, the normalized windows of the timing pass start at 0, are
contiguous (each start equals the previous end), strictly increasing (hence
non-overlapping), and the last end equals the total duration exactly (the
embedding uses exact rational arithmetic). -/
theorem subtitleTimings_cover (text : List Char) (D : ℚ)
    (hne : splitTextIntoChunks text 3 25 ≠ []) (hD : 0 < D) :
    (subtitleTimings text D).head?.map (fun x => x.2.1) = some 0 ∧
      List.Chain' (fun a b => a.2.2 = b.2.1) (subtitleTimings text D) ∧
      (∀ x ∈ subtitleTimings text D, x.2.1 < x.2.2) ∧
      (subtitleTimings text D).getLast?.map (fun x => x.2.2) = some D :=
  allocateWindows_spec (splitTextIntoChunks text 3 25) D hne hD

/-- Witness for C1 at a concrete input. -/
theorem subtitleTimings_cover_witness :
    (subtitleTimings "hi".toList 1).head?.map (fun x => x.2.1) = some 0 ∧
      List.Chain' (fun a b => a.2.2 = b.2.1) (subtitleTimings "hi".toList 1) ∧
      (∀ x ∈ subtitleTimings "hi".toList 1, x.2.1 < x.2.2) ∧
      (subtitleTimings "hi".toList 1).getLast?.map (fun x => x.2.2) = some 1 :=
  subtitleTimings_cover "hi".toList 1 (by decide) (by norm_num)

set_option maxRecDepth 10000 in
/-- Claim C5: on the text `"Hello world this is a test of captions"` with
limits (3, 25) and duration 9, the chunker yields exactly the three fragments
`"Hello world this"`, `"is a test"`, `"of captions"`, and the timing pass
yields windows contiguously covering `[0, 9]` with last end exactly 9. -/
theorem example_pipeline :
    splitTextIntoChunks "Hello world this is a test of captions".toList 3 25 =
        ["Hello world this".toList, "is a test".toList, "of captions".toList] ∧
      subtitleTimings "Hello world this is a test of captions".toList 9 =
        [("Hello world this".toList, 0, 4), ("is a test".toList, 4, 25 / 4),
          ("of captions".toList, 25 / 4, 9)] := by
  constructor
  · decide
  · have hch : splitTextIntoChunks "Hello world this is a test of captions".toList 3 25 =
        ["Hello world this".toList, "is a test".toList, "of captions".toList] := by
      decide
    have hsum : ((List.map List.length
        ["Hello world this".toList, "is a test".toList, "of captions".toList]).sum) = 36 := by
      decide
    simp only [subtitleTimings, allocateWindows, hch, hsum, allocatePass]
    norm_num [List.length]
    decide

/-- Claim C6: every provisional (pre-normalization) window duration is at
least the half-second floor, and the pre-scale durations are monotone in the
fragments' character counts. -/
theorem provisional_floor_mono (chunks : List (List Char)) (D : ℚ) (hD : 0 < D)
    (_hch : ∀ c ∈ chunks, c ≠ []) :
    (∀ x ∈ (allocatePass ((chunks.map List.length).sum : ℚ) D chunks 0).1,
        (1 : ℚ) / 2 ≤ x.2.2 - x.2.1) ∧
      ∀ x ∈ (allocatePass ((chunks.map List.length).sum : ℚ) D chunks 0).1,
        ∀ y ∈ (allocatePass ((chunks.map List.length).sum : ℚ) D chunks 0).1,
          y.1.length ≤ x.1.length → y.2.2 - y.2.1 ≤ x.2.2 - x.2.1 := by
  constructor
  · intro x hx
    rw [allocatePass_duration _ D chunks 0 x hx]
    exact le_max_right _ _
  · intro x hx y hy hlen
    rw [allocatePass_duration _ D chunks 0 x hx,
      allocatePass_duration _ D chunks 0 y hy]
    have hdiv : (y.1.length : ℚ) / ((chunks.map List.length).sum : ℚ) ≤
        (x.1.length : ℚ) / ((chunks.map List.length).sum : ℚ) := by
      rw [div_eq_mul_inv, div_eq_mul_inv]
      exact mul_le_mul_of_nonneg_right (Nat.cast_le.mpr hlen)
        (inv_nonneg.mpr (Nat.cast_nonneg _))
    exact max_le_max (mul_le_mul_of_nonneg_right hdiv (le_of_lt hD)) le_rfl

/-- Witness for C6 at a concrete input. -/
theorem provisional_floor_mono_witness :
    (∀ x ∈ (allocatePass (((([['a'], ['b', 'b']] : List (List Char)).map
          List.length).sum : ℚ)) 1 [['a'], ['b', 'b']] 0).1,
        (1 : ℚ) / 2 ≤ x.2.2 - x.2.1) ∧
      ∀ x ∈ (allocatePass (((([['a'], ['b', 'b']] : List (List Char)).map
          List.length).sum : ℚ)) 1 [['a'], ['b', 'b']] 0).1,
        ∀ y ∈ (allocatePass (((([['a'], ['b', 'b']] : List (List Char)).map
            List.length).sum : ℚ)) 1 [['a'], ['b', 'b']] 0).1,
          y.1.length ≤ x.1.length → y.2.2 - y.2.1 ≤ x.2.2 - x.2.1 :=
  provisional_floor_mono [['a'], ['b', 'b']] 1 (by norm_num) (by decide)

/-- Claim C9: with at least one (non-empty) fragment and a positive duration,
the proportional shares sum to the total duration, each clamped provisional
duration is at least its share, so the provisional running sum is at least
the total duration, the normalization factor is at most 1, and every scaled
window duration is at most its provisional duration; at a concrete input the
scaled duration of a short fragment drops below the half-second floor. -/
theorem alloc_sum_ge_total (chunks : List (List Char)) (D : ℚ) (hD : 0 < D)
    (hne : chunks ≠ []) (hch : ∀ c ∈ chunks, c ≠ []) :
    (chunks.map (fun c =>
        (c.length : ℚ) / ((chunks.map List.length).sum : ℚ) * D)).sum = D ∧
      (∀ x ∈ (allocatePass ((chunks.map List.length).sum : ℚ) D chunks 0).1,
        (x.1.length : ℚ) / ((chunks.map List.length).sum : ℚ) * D ≤
          x.2.2 - x.2.1) ∧
      D ≤ (allocatePass ((chunks.map List.length).sum : ℚ) D chunks 0).2 ∧
      D / (allocatePass ((chunks.map List.length).sum : ℚ) D chunks 0).2 ≤ 1 ∧
      (∀ x ∈ (allocatePass ((chunks.map List.length).sum : ℚ) D chunks 0).1,
        x.2.2 * (D / (allocatePass ((chunks.map List.length).sum : ℚ) D chunks 0).2) -
            x.2.1 * (D / (allocatePass ((chunks.map List.length).sum : ℚ) D chunks 0).2) ≤
          x.2.2 - x.2.1) ∧
      ∃ x ∈ allocateWindows [['a'], ['b', 'b', 'b', 'b', 'b', 'b', 'b', 'b', 'b']] 2,
        x.2.2 - x.2.1 < 1 / 2 := by
  have hTnat : 0 < (chunks.map List.length).sum := by
    cases chunks with
    | nil => exact absurd rfl hne
    | cons c rest =>
      have hcne : c ≠ [] := hch c (by simp)
      have hcpos := List.length_pos.mpr hcne
      simp only [List.map_cons, List.sum_cons]
      omega
  have hT : (0 : ℚ) < ((chunks.map List.length).sum : ℚ) := by exact_mod_cast hTnat
  have hcast : (((chunks.map List.length).sum : ℕ) : ℚ) =
      (chunks.map (fun c => ((c.length : ℚ)))).sum := by
    rw [Nat.cast_list_sum, List.map_map]
    rfl
  have h1 : (chunks.map (fun c =>
      (c.length : ℚ) / ((chunks.map List.length).sum : ℚ) * D)).sum = D := by
    have hrw : (chunks.map (fun c =>
        (c.length : ℚ) / ((chunks.map List.length).sum : ℚ) * D)).sum =
        (chunks.map (fun c => (c.length : ℚ) *
          ((((chunks.map List.length).sum : ℚ))⁻¹ * D))).sum := by
      simp only [div_eq_mul_inv, mul_assoc]
    rw [hrw, List.sum_map_mul_right, ← hcast, ← mul_assoc,
      mul_inv_cancel₀ (ne_of_gt hT), one_mul]
  have h2 : ∀ x ∈ (allocatePass ((chunks.map List.length).sum : ℚ) D chunks 0).1,
      (x.1.length : ℚ) / ((chunks.map List.length).sum : ℚ) * D ≤ x.2.2 - x.2.1 := by
    intro x hx
    rw [allocatePass_duration _ D chunks 0 x hx]
    exact le_max_left _ _
  have h3 : D ≤ (allocatePass ((chunks.map List.length).sum : ℚ) D chunks 0).2 := by
    rw [allocatePass_final, zero_add]
    calc D = (chunks.map (fun c =>
          (c.length : ℚ) / ((chunks.map List.length).sum : ℚ) * D)).sum := h1.symm
      _ ≤ (chunks.map (fun c => max ((c.length : ℚ) /
          ((chunks.map List.length).sum : ℚ) * D) (1 / 2))).sum :=
        List.sum_le_sum (fun c _ => le_max_left _ _)
  have hpass : 0 < (allocatePass ((chunks.map List.length).sum : ℚ) D chunks 0).2 :=
    lt_of_lt_of_le hD h3
  have h4 : D / (allocatePass ((chunks.map List.length).sum : ℚ) D chunks 0).2 ≤ 1 :=
    (div_le_one hpass).mpr h3
  refine ⟨h1, h2, h3, h4, ?_, ?_⟩
  · intro x hx
    have hdur := allocatePass_duration _ D chunks 0 x hx
    have hnn : 0 ≤ x.2.2 - x.2.1 := by
      rw [hdur]
      exact le_trans (by norm_num) (le_max_right _ _)
    rw [← sub_mul]
    exact mul_le_of_le_one_right hnn h4
  · have hwins : allocateWindows [['a'], ['b', 'b', 'b', 'b', 'b', 'b', 'b', 'b', 'b']] 2 =
        [(['a'], 0, 10 / 23),
          (['b', 'b', 'b', 'b', 'b', 'b', 'b', 'b', 'b'], 10 / 23, 2)] := by
      simp only [allocateWindows, allocatePass_cons, allocatePass_nil, List.map_cons,
        List.map_nil, List.sum_cons, List.sum_nil, List.length_cons, List.length_nil]
      norm_num
    rw [hwins]
    exact ⟨(['a'], 0, 10 / 23), by simp, by norm_num⟩

/-- Witness for C9 at a concrete input. -/
theorem alloc_sum_ge_total_witness :
    ((([['a'], ['b', 'b']] : List (List Char)).map (fun c =>
        (c.length : ℚ) / ((([['a'], ['b', 'b']] : List (List Char)).map
          List.length).sum : ℚ) * 1)).sum = 1 ∧
      (∀ x ∈ (allocatePass ((([['a'], ['b', 'b']] : List (List Char)).map
          List.length).sum : ℚ) 1 [['a'], ['b', 'b']] 0).1,
        (x.1.length : ℚ) / ((([['a'], ['b', 'b']] : List (List Char)).map
          List.length).sum : ℚ) * 1 ≤ x.2.2 - x.2.1) ∧
      (1 : ℚ) ≤ (allocatePass ((([['a'], ['b', 'b']] : List (List Char)).map
        List.length).sum : ℚ) 1 [['a'], ['b', 'b']] 0).2 ∧
      (1 : ℚ) / (allocatePass ((([['a'], ['b', 'b']] : List (List Char)).map
        List.length).sum : ℚ) 1 [['a'], ['b', 'b']] 0).2 ≤ 1 ∧
      (∀ x ∈ (allocatePass ((([['a'], ['b', 'b']] : List (List Char)).map
          List.length).sum : ℚ) 1 [['a'], ['b', 'b']] 0).1,
        x.2.2 * ((1 : ℚ) / (allocatePass ((([['a'], ['b', 'b']] : List (List Char)).map
            List.length).sum : ℚ) 1 [['a'], ['b', 'b']] 0).2) -
            x.2.1 * ((1 : ℚ) / (allocatePass ((([['a'], ['b', 'b']] : List (List Char)).map
            List.length).sum : ℚ) 1 [['a'], ['b', 'b']] 0).2) ≤
          x.2.2 - x.2.1) ∧
      ∃ x ∈ allocateWindows [['a'], ['b', 'b', 'b', 'b', 'b', 'b', 'b', 'b', 'b']] 2,
        x.2.2 - x.2.1 < 1 / 2) :=
  alloc_sum_ge_total [['a'], ['b', 'b']] 1 (by norm_num) (by decide) (by decide)

/-- Claim C10: every directive emitted by `generateSubtitleFilter` is well
formed: it is built from an escaped fragment that contains no ASCII
apostrophe (so the single-quoted `text` field cannot terminate early), and
its `between(t,start,end)` times are rendered with exactly three decimal
places. -/
theorem directives_well_formed (text : List Char) (D : ℚ) (d : List Char)
    (hd : d ∈ subtitleDirectives text D) :
    ∃ frag s e, (frag, s, e) ∈ subtitleTimings text D ∧
      d = buildDirective frag s e ∧
      apos ∉ escapeDrawtext frag ∧
      d = dtHead ++ [apos] ++ escapeDrawtext frag ++ [apos] ++ dtMid ++ [apos] ++
          btHead ++ toFixed3 s ++ [','] ++ toFixed3 e ++ [')', apos] ∧
      fixed3Shape (toFixed3 s) ∧ fixed3Shape (toFixed3 e) := by
  rcases List.mem_map.mp hd with ⟨x, hx, rfl⟩
  exact ⟨x.1, x.2.1, x.2.2, hx, rfl, apos_not_mem_escapeDrawtext x.1, rfl,
    toFixed3_shape _, toFixed3_shape _⟩

/-- Witness for C10 at a concrete input. -/
theorem directives_well_formed_witness :
    ∃ frag s e, (frag, s, e) ∈ subtitleTimings "hi".toList 1 ∧
      buildDirective "hi".toList 0 1 = buildDirective frag s e ∧
      apos ∉ escapeDrawtext frag ∧
      buildDirective "hi".toList 0 1 = dtHead ++ [apos] ++ escapeDrawtext frag ++
          [apos] ++ dtMid ++ [apos] ++ btHead ++ toFixed3 s ++ [','] ++ toFixed3 e ++
          [')', apos] ∧
      fixed3Shape (toFixed3 s) ∧ fixed3Shape (toFixed3 e) := by
  have hch : splitTextIntoChunks "hi".toList 3 25 = [['h', 'i']] := by decide
  have htim : subtitleTimings "hi".toList 1 = [(['h', 'i'], 0, 1)] := by
    simp only [subtitleTimings, hch, allocateWindows, allocatePass_cons,
      allocatePass_nil, List.map_cons, List.map_nil, List.sum_cons, List.sum_nil,
      List.length_cons, List.length_nil]
    norm_num
  refine directives_well_formed "hi".toList 1 (buildDirective "hi".toList 0 1) ?_
  rw [subtitleDirectives, htim]
  simp only [List.map_cons, List.map_nil]
  exact List.mem_singleton.mpr rfl
